import Mathlib

/-!
Verification of the fzf-import-cli streaming pipeline against its source.

Lines of text are modelled as `List Char` (`Line`); JavaScript strings are
embedded by their character lists.  Each definition below mirrors one
function of `src/utils.ts` or `src/fzf-import.ts` (the keyword-mode
revision): the JS string primitives (`trim`, `includes`, `split`, ...) are
embedded first, then the relevance scorer, the deduplicating rank stage,
the placement engine, the symbol extractor, and the subprocess exit-code
handlers.  JS whitespace (`\s`) is embedded as its ASCII fragment, which
covers every character class the program manipulates.
-/

/-- A line (or chunk) of text, as a list of characters. -/
abbrev Line := List Char

/-- Single-quote character, used to build string constants that contain it. -/
def sqC : Char := '\''

/-- Double-quote character. -/
def dqC : Char := '"'

/-- ASCII fragment of the JS `\s` whitespace class,
used by `String.prototype.trim` and by `\s` in the source regexes. -/
def jsIsWs (c : Char) : Bool :=
  c = ' ' || c = '\t' || c = '\n' || c = '\r' || c = '\x0b' || c = '\x0c'

/-- JS `String.prototype.trim`: strip whitespace from both ends. -/
def trimChars (l : Line) : Line :=
  ((l.dropWhile jsIsWs).reverse.dropWhile jsIsWs).reverse

/-- JS `String.prototype.startsWith` on character lists. -/
def startsWithL : Line → Line → Bool
  | _, [] => true
  | [], _ :: _ => false
  | c :: h, p :: ps => c = p && startsWithL h ps

/-- JS `String.prototype.endsWith` on character lists. -/
def endsWithL (l pat : Line) : Bool :=
  startsWithL l.reverse pat.reverse

/-- JS `String.prototype.includes` on character lists. -/
def containsL : Line → Line → Bool
  | hay, pat =>
    startsWithL hay pat ||
      match hay with
      | [] => false
      | _ :: t => containsL t pat

/-- JS `String.prototype.split(sep)` for a single-character separator. -/
def splitOnC (sep : Char) : Line → List Line
  | [] => [[]]
  | c :: t =>
    if c = sep then [] :: splitOnC sep t
    else
      match splitOnC sep t with
      | [] => [[c]]
      | h :: r => (c :: h) :: r

/-- `split('\n')`, as used for line-breaking buffers and file contents. -/
def splitNl (l : Line) : List Line := splitOnC '\n' l

/-- JS `Array.prototype.join('\n')`. -/
def joinNl : List Line → Line
  | [] => []
  | [l] => l
  | l :: r => l ++ '\n' :: joinNl r

/-- `list.splice(i, 0, x)`: insert `x` at index `i` (`i ≤ length` in every use). -/
def insertAtIdx (n : Nat) (x : Line) (ls : List Line) : List Line :=
  ls.take n ++ x :: ls.drop n

section Scorer

/-- `\w` of the source regexes: `[A-Za-z0-9_]`. -/
def isWordRe (c : Char) : Bool :=
  ('a' ≤ c && c ≤ 'z') || ('A' ≤ c && c ≤ 'Z') || ('0' ≤ c && c ≤ '9') || c = '_'

/-- `['"]` of the source regexes. -/
def isQuoteC (c : Char) : Bool := c = sqC || c = dqC

/-- The literal `from`. -/
def fromLit : Line := ['f', 'r', 'o', 'm']

/-- The literal `import`. -/
def importLit : Line := ['i', 'm', 'p', 'o', 'r', 't']

/-- The literal `type`. -/
def typeLit : Line := ['t', 'y', 'p', 'e']

/-- Lazy `(.*?)['"]` after the opening quote of `/from\s+['"](.*?)['"]/`:
the shortest run of non-newline characters up to a closing quote. -/
def lazyToQuote : Line → Option Line
  | [] => none
  | c :: t =>
    if isQuoteC c then some []
    else if c = '\n' then none
    else (lazyToQuote t).map (c :: ·)

/-- One anchored attempt of `/from\s+['"](.*?)['"]/` at the head of `s`,
returning the capture group (the module path). -/
def tryFromQuote (s : Line) : Option Line :=
  if startsWithL s fromLit then
    let r := s.drop 4
    match r with
    | [] => none
    | c :: _ =>
      if jsIsWs c then
        match r.dropWhile jsIsWs with
        | [] => none
        | q :: rest => if isQuoteC q then lazyToQuote rest else none
      else none
  else none

/-- Leftmost match of `/from\s+['"](.*?)['"]/` (`importLine.match(...)` group 1). -/
def matchFromQuote : Line → Option Line
  | [] => none
  | c :: t =>
    match tryFromQuote (c :: t) with
    | some r => some r
    | none => matchFromQuote t

/-- Branch `{[^}]*}` of the symbols regex: the brace group through the first `}`. -/
def altBraces (r : Line) : Option Line :=
  match r with
  | [] => none
  | c :: t =>
    if c = '{' then
      if ('}' ∈ t) then some ('{' :: t.takeWhile (fun x => x ≠ '}') ++ ['}'])
      else none
    else none

/-- Branch `\*\s+as\s+\w+` of the symbols regex, returning the matched text. -/
def altStar (r : Line) : Option Line :=
  match r with
  | [] => none
  | c :: t =>
    if c = '*' then
      let ws1 := t.takeWhile jsIsWs
      let r1 := t.dropWhile jsIsWs
      if ws1 = [] then none
      else if startsWithL r1 ['a', 's'] then
        let r2 := r1.drop 2
        let ws2 := r2.takeWhile jsIsWs
        let r3 := r2.dropWhile jsIsWs
        if ws2 = [] then none
        else
          let w := r3.takeWhile isWordRe
          if w = [] then none
          else some ('*' :: ws1 ++ 'a' :: 's' :: ws2 ++ w)
      else none
    else none

/-- Branch `\w+` of the symbols regex. -/
def altWord (r : Line) : Option Line :=
  let w := r.takeWhile isWordRe
  if w = [] then none else some w

/-- The alternation `({[^}]*}|\*\s+as\s+\w+|\w+)`, branches in regex order. -/
def tryAlt (r : Line) : Option Line :=
  match altBraces r with
  | some g => some g
  | none =>
    match altStar r with
    | some g => some g
    | none => altWord r

/-- One anchored attempt of `/import\s+(?:type\s+)?(...)/` at the head of `s`:
prefer consuming `type\s+`, backtrack to skipping it if the alternation fails. -/
def tryImportSymbols (s : Line) : Option Line :=
  if startsWithL s importLit then
    let r := s.drop 6
    match r with
    | [] => none
    | c :: _ =>
      if jsIsWs c then
        let rest := r.dropWhile jsIsWs
        let afterType : Option Line :=
          if startsWithL rest typeLit then
            let r2 := rest.drop 4
            match r2 with
            | [] => none
            | c2 :: _ => if jsIsWs c2 then tryAlt (r2.dropWhile jsIsWs) else none
          else none
        match afterType with
        | some g => some g
        | none => tryAlt rest
      else none
  else none

/-- Leftmost match of `/import\s+(?:type\s+)?({[^}]*}|\*\s+as\s+\w+|\w+)/`,
group 1 (`symbolsText`). -/
def matchImportSymbols : Line → Option Line
  | [] => none
  | c :: t =>
    match tryImportSymbols (c :: t) with
    | some r => some r
    | none => matchImportSymbols t

/-- `+30` per `/`-delimited path segment starting with the keyword
(the `for (const segment of segments)` loop of `calculateRelevanceScore`). -/
def pathSegBonus (importName keyword : Line) : Int :=
  (splitOnC '/' importName).foldl
    (fun acc seg => if startsWithL seg keyword then acc + 30 else acc) 0

/-- The named-import refinement of `calculateRelevanceScore`
(the `hasDestructuring` branch and the default/namespace branch). -/
def symbolBonus (symbolsText keyword : Line) : Int :=
  if startsWithL symbolsText ['{'] && endsWithL symbolsText ['}'] then
    let parts := splitOnC ',' (symbolsText.filter (fun c => !(c = '{' || c = '}')))
    if parts.length = 1 && trimChars (parts.headD []) = keyword then 60
    else
      parts.foldl
        (fun acc p =>
          let t := trimChars p
          if t = keyword then acc + 40
          else if startsWithL t keyword then acc + 20
          else acc) 0
  else if symbolsText = keyword then 60
  else if containsL symbolsText keyword then 40
  else 0

/-- `Utils.calculateRelevanceScore` (src/utils.ts): relevance of one
candidate import line for a keyword. -/
def calculateRelevanceScore (importLine keyword : Line) : Int :=
  if keyword = [] || importLine = [] then 0
  else
    let importName := (matchFromQuote importLine).getD []
    let symbolsText := (matchImportSymbols importLine).getD []
    let pathScore : Int :=
      if importName ≠ [] && containsL importName keyword then
        100 + (if importName = keyword then 50 else 0) + pathSegBonus importName keyword
      else 0
    let symScore : Int :=
      if symbolsText ≠ [] && containsL symbolsText keyword then
        80 + symbolBonus symbolsText keyword
      else 0
    let score := pathScore + symScore
    if score = 0 && containsL importLine keyword then 10 else score

end Scorer

section DedupStream

/-- `isRelativeImport` (src/fzf-import.ts): the fast substring check
`line.includes("from './") || line.includes("from '../")`. -/
def isRelativeImport (l : Line) : Bool :=
  containsL l (fromLit ++ [' ', sqC, '.', '/']) ||
    containsL l (fromLit ++ [' ', sqC, '.', '.', '/'])

/-- `BATCH_SIZE` of `createDeduplicateStream`. -/
def BATCH_SIZE : Nat := 20

/-- `scoreCache.has`/`get`: first binding for a key in the association list. -/
def cacheLookup : List (Line × Int) → Line → Option Int
  | [], _ => none
  | (k, v) :: t, key => if k = key then some v else cacheLookup t key

/-- `getScore` of `createDeduplicateStream`: return the cached score for the
line, computing and caching it on a miss. -/
def getScore (keyword : Line) (cache : List (Line × Int)) (line : Line) :
    Int × List (Line × Int) :=
  match cacheLookup cache line with
  | some v => (v, cache)
  | none =>
    let s := calculateRelevanceScore line keyword
    (s, (line, s) :: cache)

/-- The comparator of `processBatch` as a boolean `le`:
descending score, ties broken by ascending raw-line length. -/
def batchLe (a b : Line × Int) : Bool :=
  decide (b.2 < a.2) || (decide (a.2 = b.2) && decide (a.1.length ≤ b.1.length))

/-- Stable insertion of one scored candidate into a `batchLe`-sorted list:
the new element goes before the first element it compares `le` to, so
elements that compare equal keep their original relative order. -/
def insertRanked (x : Line × Int) : List (Line × Int) → List (Line × Int)
  | [] => [x]
  | y :: l => if batchLe x y then x :: y :: l else y :: insertRanked x l

/-- `currentBatch.sort(...)` of `processBatch`: a stable sort by the
comparator (JS `Array.prototype.sort` is stable; a stable sort by a total
preorder is unique, so stable insertion sort is extensionally the same). -/
def sortBatch (batch : List (Line × Int)) : List (Line × Int) :=
  batch.foldr insertRanked []

/-- The mutable state of one `createDeduplicateStream` instance:
`seen`, `buffer`, `scoreCache` and `currentBatch`. -/
structure DState where
  seen : List Line
  buffer : Line
  cache : List (Line × Int)
  batch : List (Line × Int)
  deriving Repr, DecidableEq

/-- Fresh stream state. -/
def initDState : DState := ⟨[], [], [], []⟩

/-- The `for (const line of lines)` loop of the transform callback.
Returns the updated state, the accumulated `uniqueLines`, and
`some sortedBatch` when the batch reached `BATCH_SIZE` — in which case the
loop returned early and the remaining lines of the chunk were abandoned. -/
def dedupLoop (kw : Line) : List Line → DState → List Line →
    DState × List Line × Option (List Line)
  | [], s, uniq => (s, uniq, none)
  | line :: rest, s, uniq =>
    let t := trimChars line
    if t ≠ [] then
      if isRelativeImport t then dedupLoop kw rest s uniq
      else if s.seen.contains t then dedupLoop kw rest s uniq
      else
        let s1 : DState := { s with seen := t :: s.seen }
        if kw ≠ [] then
          let sc := getScore kw s1.cache t
          let batch := s1.batch ++ [(line, sc.1)]
          if BATCH_SIZE ≤ batch.length then
            ({ s1 with cache := sc.2, batch := [] }, uniq,
              some ((sortBatch batch).map Prod.fst))
          else dedupLoop kw rest { s1 with cache := sc.2, batch := batch } uniq
        else dedupLoop kw rest s1 (uniq ++ [line])
    else
      if kw = [] then dedupLoop kw rest s (uniq ++ [line])
      else dedupLoop kw rest s uniq

/-- The `transform` callback of `createDeduplicateStream`: append the chunk to
the carry-over buffer, split on line breaks, keep the final fragment as the
new buffer, run the line loop, and emit either the early-returned sorted
batch or (in no-keyword mode) the accumulated unique lines. -/
def transformChunk (kw : Line) (s : DState) (chunk : Line) :
    DState × List (List Line) :=
  let parts := splitNl (s.buffer ++ chunk)
  let s0 : DState := { s with buffer := (parts.getLast?).getD [] }
  let r := dedupLoop kw parts.dropLast s0 []
  match r.2.2 with
  | some b => (r.1, [b])
  | none => if kw = [] && r.2.1 ≠ [] then (r.1, [r.2.1]) else (r.1, [])

/-- The trailing `if (shouldSort && currentBatch.length > 0) processBatch(...)`
of the flush callback. -/
def emitBatchIfAny (kw : Line) (s : DState) : DState × List (List Line) :=
  if kw ≠ [] && s.batch ≠ [] then
    ({ s with batch := [] }, [(sortBatch s.batch).map Prod.fst])
  else (s, [])

/-- The `flush` callback of `createDeduplicateStream`: process the residual
carry-over as a final line under the same rules, then flush any partially
filled batch. -/
def flushStream (kw : Line) (s : DState) : DState × List (List Line) :=
  let t := trimChars s.buffer
  if t ≠ [] && !isRelativeImport t && !s.seen.contains t then
    let s1 : DState := { s with seen := t :: s.seen }
    if kw ≠ [] then
      let sc := getScore kw s1.cache t
      emitBatchIfAny kw { s1 with cache := sc.2, batch := s1.batch ++ [(s.buffer, sc.1)] }
    else (s1, [[s.buffer]])
  else emitBatchIfAny kw s

/-- Feed a sequence of chunks through the transform, collecting all emitted
chunks (each one a list of emitted lines). -/
def runChunks (kw : Line) : DState → List Line → DState × List (List Line)
  | s, [] => (s, [])
  | s, c :: cs =>
    let r1 := transformChunk kw s c
    let r2 := runChunks kw r1.1 cs
    (r2.1, r1.2 ++ r2.2)

/-- The final stream state of one full Rank Stage session. -/
def runSessionState (kw : Line) (chunks : List Line) : DState :=
  (flushStream kw (runChunks kw initDState chunks).1).1

/-- One full Rank Stage session: all chunks transformed from a fresh state,
then the end-of-input flush; the result is the list of emitted chunks,
each a list of emitted lines. -/
def runSession (kw : Line) (chunks : List Line) : List (List Line) :=
  let r := runChunks kw initDState chunks
  r.2 ++ (flushStream kw r.1).2

end DedupStream

section Placement

/-- The skip test of `Utils.addImportToFile`'s scan: blank line, line
comment, block-comment open, or block-comment continuation/close. -/
def isSkipLine (l : Line) : Bool :=
  let t := trimChars l
  t = [] || startsWithL t ['/', '/'] || startsWithL t ['/', '*'] || startsWithL t ['*']

/-- The body of `Utils.addImportToFile`'s insertion-index scan. -/
def findInsertIndexGo : List Line → Nat → Nat
  | [], i => i
  | l :: rest, i => if isSkipLine l then findInsertIndexGo rest (i + 1) else i

/-- The insertion-index scan of `Utils.addImportToFile`: both the
import-statement branch and the substantive-line branch break at index `i`,
and exhausting the lines leaves `insertIndex = lines.length`. -/
def findInsertIndex (lines : List Line) : Nat := findInsertIndexGo lines 0

/-- `Utils.addImportToFile` (src/utils.ts) at the content level:
split on line breaks, splice the new import at the computed index,
join back. -/
def addImportToFile (content importLine : Line) : Line :=
  let lines := splitNl content
  joinNl (insertAtIdx (findInsertIndex lines) importLine lines)

/-- `Utils.lineExistsInFile` (src/utils.ts): some existing line is
trimmed-equal to the candidate line. -/
def lineExistsInFile (content line : Line) : Bool :=
  (splitNl content).any (fun l => trimChars l = trimChars line)

/-- `FzfImport.addImportToFile` (src/fzf-import.ts): duplicate-guarded
insertion; `none` means the write was skipped and the file left unchanged. -/
def addImportIfAbsent (content importLine : Line) : Option Line :=
  if lineExistsInFile content importLine then none
  else some (addImportToFile content importLine)

end Placement

section SymbolExtraction

/-- The identifier-character class `[a-zA-Z0-9_$]` of `getSymbolAtPosition`. -/
def isWordChar (c : Char) : Bool :=
  ('a' ≤ c && c ≤ 'z') || ('A' ≤ c && c ≤ 'Z') || ('0' ≤ c && c ≤ '9') || c = '_' || c = '$'

/-- The `while (start > 0 && isWordChar(line[start - 1])) start--` loop. -/
def scanLeft (line : Line) : Nat → Nat
  | 0 => 0
  | i + 1 => if isWordChar (line.getD i ' ') then scanLeft line i else i + 1

/-- The `while (end < line.length - 1 && isWordChar(line[end + 1])) end++`
loop, with the number of remaining loop iterations as explicit fuel. -/
def scanRightAux (line : Line) : Nat → Nat → Nat
  | 0, i => i
  | fuel + 1, i =>
    if i < line.length - 1 && isWordChar (line.getD (i + 1) ' ') then
      scanRightAux line fuel (i + 1)
    else i

/-- The right-expansion loop of `getSymbolAtPosition`; the loop advances only
while `i < line.length - 1`, so `line.length - 1 - i` iterations of fuel make
`scanRightAux` exhaust the loop exactly. -/
def scanRight (line : Line) (i : Nat) : Nat :=
  scanRightAux line (line.length - 1 - i) i

/-- `Utils.getSymbolAtPosition` (src/utils.ts) on in-memory file content:
1-indexed row and column, null on any out-of-range or non-identifier hit,
otherwise the maximal identifier run around the position
(`line.substring(start, end + 1)`). -/
def getSymbolAtPosition (content : Line) (row col : Int) : Option Line :=
  let lines := splitNl content
  let lineIndex := row - 1
  if lineIndex < 0 || (lines.length : Int) ≤ lineIndex then none
  else
    let line := lines.getD lineIndex.toNat []
    let colIndex := col - 1
    if colIndex < 0 || (line.length : Int) ≤ colIndex then none
    else if !isWordChar (line.getD colIndex.toNat ' ') then none
    else
      let start := scanLeft line colIndex.toNat
      let stop := scanRight line colIndex.toNat
      some ((line.take (stop + 1)).drop start)

end SymbolExtraction

section Orchestrator

/-- Action taken by the search subprocess's `close` handler in
`streamingSearchAndSelect`. -/
inductive RgCloseAction where
  | closeSelectorInput
  | failSession (code : Int)
  deriving Repr, DecidableEq

/-- The `rg.on('close', ...)` handler: exit code 1 (no matches) closes the
selector's input; any other non-zero code fails the session; success also
closes the selector's input. -/
def rgOnClose (code : Int) : RgCloseAction :=
  if code = 1 then .closeSelectorInput
  else if code ≠ 0 then .failSession code
  else .closeSelectorInput

/-- Terminal outcome of one search-and-select session. -/
inductive SessionResult where
  | resolved (line : Option Line)
  | failed (code : Int)
  deriving Repr, DecidableEq

/-- The `fzf.on('close', ...)` handler: 130 resolves to null (user
cancelled); any other non-zero code fails; success resolves to the trimmed
captured output, or null when that is empty (`resolve(selected || null)`). -/
def fzfOnClose (code : Int) (output : Line) : SessionResult :=
  if code = 130 then .resolved none
  else if code ≠ 0 then .failed code
  else
    let selected := trimChars output
    .resolved (if selected = [] then none else some selected)

end Orchestrator

section InvariantDefs

/-- The trimmed forms of the lines of `ls`, restricted to non-empty trims
(dedup keys are trimmed texts; empty trims are never dedup-tracked). -/
def neTrims (ls : List Line) : List Line :=
  (ls.map trimChars).filter (fun t => !t.isEmpty)

/-- The dedup keys held by the current batch. -/
def batchTrims (batch : List (Line × Int)) : List Line :=
  batch.map (fun p => trimChars p.1)

/-- The score cache is consistent: every cached value equals recomputing the
scorer on its key. -/
def cacheOK (kw : Line) (cache : List (Line × Int)) : Prop :=
  ∀ p ∈ cache, p.2 = calculateRelevanceScore p.1 kw

/-- The ordering produced by `processBatch`'s comparator: strictly higher
score first, ties broken by shorter raw line first. -/
def rankedBefore (a b : Line × Int) : Prop :=
  b.2 < a.2 ∨ (a.2 = b.2 ∧ a.1.length ≤ b.1.length)

/-- An emitted chunk is a ranked batch: its lines are the first components
of a list of scored candidates, sorted by `rankedBefore`, each carrying the
relevance score of its trimmed text. -/
def ScoredSortedChunk (kw : Line) (b : List Line) : Prop :=
  ∃ p : List (Line × Int), b = p.map Prod.fst ∧ p.Pairwise rankedBefore ∧
    ∀ x ∈ p, x.2 = calculateRelevanceScore (trimChars x.1) kw

/-- The outputs produced by an early-returning transform loop. -/
def optOuts : Option (List Line) → List (List Line)
  | some b => [b]
  | none => []

/-- Session invariant of the deduplicating rank stage, relating the stream
state to the lines emitted so far (`outs`) and the loop accumulator
(`uniq`). -/
structure DInv (kw : Line) (s : DState) (outs : List (List Line)) (uniq : List Line) : Prop where
  nodup : (neTrims outs.flatten ++ (neTrims uniq ++ batchTrims s.batch)).Nodup
  sub : ∀ t ∈ neTrims outs.flatten ++ (neTrims uniq ++ batchTrims s.batch), t ∈ s.seen
  norel : ∀ l ∈ outs.flatten ++ uniq, isRelativeImport (trimChars l) = false
  batchNe : ∀ p ∈ s.batch, trimChars p.1 ≠ []
  batchNorel : ∀ p ∈ s.batch, isRelativeImport (trimChars p.1) = false
  batchScores : ∀ p ∈ s.batch, p.2 = calculateRelevanceScore (trimChars p.1) kw
  batchLt : s.batch.length < BATCH_SIZE
  cacheOk : cacheOK kw s.cache
  modeBatch : kw = [] → s.batch = []
  modeUniq : kw ≠ [] → uniq = []

end InvariantDefs

section ConcreteInputs

/-- `import { Foo } from '@lib/foo'` — the single-symbol scenario line. -/
def fooLine1 : Line := "import { Foo } from ".data ++ [sqC] ++ "@lib/foo".data ++ [sqC]

/-- `import { Foo, Bar } from '@lib/foo'` — the multi-symbol scenario line. -/
def fooLine2 : Line := "import { Foo, Bar } from ".data ++ [sqC] ++ "@lib/foo".data ++ [sqC]

/-- `import { A } from "./x"` — a relative-path import written with double
quotes. -/
def dqRelLine : Line := "import { A } from ".data ++ [dqC] ++ "./x".data ++ [dqC]

/-- 21 distinct candidate lines (`a00` … `u0D`) fed as one chunk. -/
def c2Lines : List Line :=
  (List.range 21).map (fun i =>
    [Char.ofNat ('a'.toNat + i), Char.ofNat '0'.toNat, Char.ofNat ('0'.toNat + i)])

/-- The 21 lines of `c2Lines` joined into one newline-terminated chunk. -/
def c2Chunk : Line := c2Lines.foldr (fun l acc => l ++ '\n' :: acc) []

/-- The 21st line of the chunk, which the transform's early return abandons. -/
def c2Dropped : Line := c2Lines.getD 20 []

/-- A target file whose first three lines are a block comment, followed by an
existing import, a blank line, and code. -/
def c7File : Line :=
  joinNl ["/*".data, " * header".data, " */".data,
    "import ".data ++ ['{', ' '] ++ "Foo".data ++ [' ', '}'] ++ " from ".data ++ [sqC] ++ "@lib/foo".data ++ [sqC] ++ [';'],
    [], "code();".data]

/-- `import { Baz } from '@lib/baz';` — the import line inserted in the
placement scenarios. -/
def bazImport : Line :=
  "import ".data ++ ['{', ' '] ++ "Baz".data ++ [' ', '}'] ++ " from ".data ++ [sqC] ++ "@lib/baz".data ++ [sqC] ++ [';']

/-- `const x = getUser(id);` — the symbol-extraction scenario line. -/
def symFile : Line := "const x = getUser(id);".data

/-- The three block-comment lines of `c7File`. -/
def c7Pre : List Line := ["/*".data, " * header".data, " */".data]

/-- The existing import line of `c7File`. -/
def c7Imp : Line :=
  "import ".data ++ ['{', ' '] ++ "Foo".data ++ [' ', '}'] ++ " from ".data ++ [sqC] ++ "@lib/foo".data ++ [sqC] ++ [';']

/-- The lines of `c7File` after the existing import. -/
def c7Post : List Line := [[], "code();".data]

end ConcreteInputs

/-- C5: with keyword `Foo`, the line `import { Foo } from '@lib/foo'` scores
140 (80 symbols-segment + 60 single-symbol exact bonus) while
`import { Foo, Bar } from '@lib/foo'` scores 120 (80 + 40 multi-symbol exact
bonus), so the single-symbol line scores strictly higher. -/
theorem c5_single_symbol_bonus :
    calculateRelevanceScore fooLine1 "Foo".data = 140 ∧
    calculateRelevanceScore fooLine2 "Foo".data = 120 ∧
    calculateRelevanceScore fooLine2 "Foo".data <
      calculateRelevanceScore fooLine1 "Foo".data := by
  decide

/-- C1 counterexample: the relative-path import `import { A } from "./x"`,
written with double quotes, is emitted by the Rank Stage in both no-keyword
and keyword mode, although its module-path segment (as extracted by the
scorer's own path matcher) begins `./`. -/
theorem c1_counterexample :
    dqRelLine ∈ (runSession [] [dqRelLine ++ ['\n']]).flatten ∧
    dqRelLine ∈ (runSession ['A'] [dqRelLine ++ ['\n']]).flatten ∧
    matchFromQuote dqRelLine = some ['.', '/', 'x'] ∧
    startsWithL ['.', '/', 'x'] ['.', '/'] = true := by
  decide

/-- C3 counterexample: in no-keyword mode the chunk `"\n\n"` makes the Rank
Stage emit two lines with the same trimmed text (two empty lines), so "no
two emitted lines have the same trimmed text" fails as stated. -/
theorem c3_counterexample :
    (runSession [] [['\n', '\n']]).flatten = [[], []] ∧
    ¬ ((runSession [] [['\n', '\n']]).flatten.map trimChars).Nodup := by
  decide

/-- C2 (failing run): in keyword mode, a single chunk of 21 distinct,
non-empty, non-relative lines yields only 20 emitted lines over the whole
session — the 21st complete line of the chunk survives every filtering rule
yet is never emitted, because the transform returns right after flushing the
full batch and abandons the rest of the chunk. -/
theorem c2_batch_overflow_drops_line :
    c2Dropped ∈ (splitNl c2Chunk).dropLast ∧
    trimChars c2Dropped ≠ [] ∧
    isRelativeImport (trimChars c2Dropped) = false ∧
    (neTrims (splitNl c2Chunk).dropLast).Nodup ∧
    (runSession ['z'] [c2Chunk]).flatten.length = 20 ∧
    c2Dropped ∉ (runSession ['z'] [c2Chunk]).flatten := by
  decide

/-- C9: the session outcome as a function of the subprocess exit codes —
search exit 1 closes the selector's input (not an error), any other non-zero
search code fails the session; selector exit 130 resolves to null, any other
non-zero selector code fails the session, and selector success resolves to
the trimmed captured output, or null when that is empty. -/
theorem c9_session_outcome (c : Int) (out : Line)
    (hc0 : c ≠ 0) (hc1 : c ≠ 1) (hc130 : c ≠ 130) :
    rgOnClose 1 = .closeSelectorInput ∧
    rgOnClose 0 = .closeSelectorInput ∧
    rgOnClose c = .failSession c ∧
    fzfOnClose 130 out = .resolved none ∧
    fzfOnClose c out = .failed c ∧
    fzfOnClose 0 out =
      .resolved (if trimChars out = [] then none else some (trimChars out)) := by
  refine ⟨rfl, by simp [rgOnClose], by simp [rgOnClose, hc0, hc1], rfl,
    by simp [fzfOnClose, hc0, hc130], by simp [fzfOnClose]⟩

/-- Witness for C9 at exit code 5 and output `" x "`. -/
theorem c9_session_outcome_witness :
    ((5 : Int) ≠ 0 ∧ (5 : Int) ≠ 1 ∧ (5 : Int) ≠ 130) ∧
    rgOnClose 5 = .failSession 5 ∧ fzfOnClose 5 [' ', 'x', ' '] = .failed 5 := by
  have h := c9_session_outcome 5 [' ', 'x', ' '] (by decide) (by decide) (by decide)
  exact ⟨⟨by decide, by decide, by decide⟩, h.2.2.1, h.2.2.2.2.1⟩

theorem foldl_step_nonneg (f : Int → Line → Int) (hf : ∀ a x, a ≤ f a x) :
    ∀ (l : List Line) (acc : Int), 0 ≤ acc → 0 ≤ l.foldl f acc := by
  intro l
  induction l with
  | nil => intro acc h; simpa using h
  | cons x t ih => intro acc h; exact ih _ (le_trans h (hf acc x))

theorem pathSegBonus_nonneg (n k : Line) : 0 ≤ pathSegBonus n k := by
  refine foldl_step_nonneg _ ?_ _ 0 le_rfl
  intro a x
  dsimp only
  split <;> omega

theorem symbolBonus_nonneg (st k : Line) : 0 ≤ symbolBonus st k := by
  unfold symbolBonus
  split
  · dsimp only
    split
    · omega
    · refine foldl_step_nonneg _ ?_ _ 0 le_rfl
      intro a x
      dsimp only
      split
      · omega
      · split <;> omega
  · split
    · omega
    · split <;> omega

theorem calculateRelevanceScore_nonneg (l k : Line) :
    0 ≤ calculateRelevanceScore l k := by
  unfold calculateRelevanceScore
  have h1 := pathSegBonus_nonneg ((matchFromQuote l).getD []) k
  have h2 := symbolBonus_nonneg ((matchImportSymbols l).getD []) k
  split
  · omega
  · dsimp only
    split
    · omega
    · split <;> split <;> omega

theorem cacheLookup_ok (kw : Line) :
    ∀ (cache : List (Line × Int)), cacheOK kw cache →
      ∀ k v, cacheLookup cache k = some v → v = calculateRelevanceScore k kw := by
  intro cache
  induction cache with
  | nil => intro _ k v h; simp [cacheLookup] at h
  | cons p t ih =>
    intro hok k v h
    rw [cacheLookup] at h
    by_cases hk : p.1 = k
    · rw [if_pos hk, Option.some_inj] at h
      have hpv := hok p (List.mem_cons_self p t)
      rw [← h, ← hk]
      exact hpv
    · rw [if_neg hk] at h
      exact ih (fun q hq => hok q (List.mem_cons_of_mem p hq)) k v h

theorem getScore_ok (kw : Line) (cache : List (Line × Int)) (l : Line)
    (h : cacheOK kw cache) :
    (getScore kw cache l).1 = calculateRelevanceScore l kw ∧
      cacheOK kw (getScore kw cache l).2 := by
  unfold getScore
  cases hl : cacheLookup cache l with
  | some v =>
    exact ⟨cacheLookup_ok kw cache h l v hl, h⟩
  | none =>
    refine ⟨rfl, ?_⟩
    intro p hp
    rcases List.mem_cons.mp hp with hp | hp
    · rw [hp]
    · exact h p hp

/-- C6: the relevance score of any (candidateLine, keyword) pair is a
non-negative integer, and on any consistent score cache `getScore` returns
exactly the recomputed score and keeps the cache consistent — so a cache
hit never disagrees with recomputing the scorer. -/
theorem c6_score_nonneg_and_cache_consistent (line kw : Line)
    (cache : List (Line × Int)) (h : cacheOK kw cache) :
    0 ≤ calculateRelevanceScore line kw ∧
    (getScore kw cache line).1 = calculateRelevanceScore line kw ∧
    cacheOK kw (getScore kw cache line).2 := by
  obtain ⟨h1, h2⟩ := getScore_ok kw cache line h
  exact ⟨calculateRelevanceScore_nonneg line kw, h1, h2⟩

/-- Witness for C6 on the scenario line, an empty cache, and a one-entry
cache holding a recomputed score. -/
theorem c6_score_witness :
    cacheOK "Foo".data [(fooLine1, 140)] ∧
    (0 ≤ calculateRelevanceScore fooLine1 "Foo".data ∧
      (getScore "Foo".data [(fooLine1, 140)] fooLine1).1 =
        calculateRelevanceScore fooLine1 "Foo".data ∧
      cacheOK "Foo".data (getScore "Foo".data [(fooLine1, 140)] fooLine1).2) := by
  have hok : cacheOK "Foo".data [(fooLine1, 140)] := by
    intro p hp
    rcases List.mem_cons.mp hp with hp | hp
    · rw [hp]; decide
    · cases hp
  exact ⟨hok, c6_score_nonneg_and_cache_consistent fooLine1 "Foo".data _ hok⟩

theorem findInsertIndex_go_spec (l : Line) (post : List Line) (hl : isSkipLine l = false) :
    ∀ (pre : List Line), (∀ x ∈ pre, isSkipLine x = true) →
      ∀ i, findInsertIndexGo (pre ++ l :: post) i = i + pre.length := by
  intro pre
  induction pre with
  | nil => intro _ i; simp [findInsertIndexGo, hl]
  | cons x t ih =>
    intro hpre i
    rw [List.cons_append, findInsertIndexGo, if_pos (hpre x (List.mem_cons_self x t))]
    rw [ih (fun y hy => hpre y (List.mem_cons_of_mem x hy)) (i + 1)]
    simp
    omega

theorem findInsertIndex_spec (pre : List Line) (l : Line) (post : List Line)
    (hpre : ∀ x ∈ pre, isSkipLine x = true) (hl : isSkipLine l = false) :
    findInsertIndex (pre ++ l :: post) = pre.length := by
  unfold findInsertIndex
  rw [findInsertIndex_go_spec l post hl pre hpre 0]
  omega

theorem insertAtIdx_at_append (pre : List Line) (x : Line) (rest : List Line) :
    insertAtIdx pre.length x (pre ++ rest) = pre ++ x :: rest := by
  unfold insertAtIdx
  rw [List.take_left, List.drop_left]

/-- C7: when a file's leading lines are all blank or comment lines and the
first line after them is either an import statement or a substantive code
line, the placement engine splices the new import exactly at that line's
index — immediately before the first import (or first substantive line). -/
theorem c7_insert_before_first_nonskip (content imp l : Line) (pre post : List Line)
    (hsplit : splitNl content = pre ++ l :: post)
    (hpre : ∀ x ∈ pre, isSkipLine x = true)
    (hl : isSkipLine l = false) :
    addImportToFile content imp = joinNl (pre ++ imp :: l :: post) := by
  unfold addImportToFile
  rw [hsplit]
  dsimp only
  rw [findInsertIndex_spec pre l post hpre hl, insertAtIdx_at_append]

/-- Witness for C7: inserting `import { Baz } from '@lib/baz';` into a file
whose first three lines are a block comment followed by an existing import
places the new line immediately before the existing import. -/
theorem c7_insert_before_first_nonskip_witness :
    (splitNl c7File = c7Pre ++ c7Imp :: c7Post ∧
      (∀ x ∈ c7Pre, isSkipLine x = true) ∧ isSkipLine c7Imp = false) ∧
    addImportToFile c7File bazImport = joinNl (c7Pre ++ bazImport :: c7Imp :: c7Post) := by
  exact ⟨⟨by decide, by decide, by decide⟩,
    c7_insert_before_first_nonskip c7File bazImport c7Imp c7Pre c7Post
      (by decide) (by decide) (by decide)⟩

theorem splitOnC_ne_nil (sep : Char) : ∀ l : Line, splitOnC sep l ≠ [] := by
  intro l
  induction l with
  | nil => simp [splitOnC]
  | cons c t ih =>
    rw [splitOnC]
    split
    · simp
    · cases h : splitOnC sep t with
      | nil => exact absurd h ih
      | cons x r => simp [h]

theorem mem_splitOnC_no_sep (sep : Char) :
    ∀ (l : Line), ∀ p ∈ splitOnC sep l, sep ∉ p := by
  intro l
  induction l with
  | nil =>
    intro p hp
    simp only [splitOnC, List.mem_singleton] at hp
    simp [hp]
  | cons c t ih =>
    intro p hp
    rw [splitOnC] at hp
    by_cases hc : c = sep
    · rw [if_pos hc] at hp
      rcases List.mem_cons.mp hp with h | h
      · simp [h]
      · exact ih p h
    · rw [if_neg hc] at hp
      cases hsp : splitOnC sep t with
      | nil => exact absurd hsp (splitOnC_ne_nil sep t)
      | cons x r =>
        rw [hsp] at hp
        rcases List.mem_cons.mp hp with h | h
        · rw [h]
          intro hmem
          rcases List.mem_cons.mp hmem with h' | h'
          · exact hc h'.symm
          · have hx : sep ∉ x := ih x (by rw [hsp]; exact List.mem_cons_self x r)
            exact hx h'
        · exact ih p (by rw [hsp]; exact List.mem_cons_of_mem x h)

theorem splitOnC_no_sep (sep : Char) : ∀ l : Line, sep ∉ l → splitOnC sep l = [l] := by
  intro l
  induction l with
  | nil => intro _; rfl
  | cons c t ih =>
    intro h
    rw [splitOnC, if_neg (fun hc => h (by rw [hc]; exact List.mem_cons_self sep t))]
    rw [ih (fun hm => h (List.mem_cons_of_mem c hm))]

theorem splitOnC_append_sep (sep : Char) (rest : Line) :
    ∀ l : Line, sep ∉ l → splitOnC sep (l ++ sep :: rest) = l :: splitOnC sep rest := by
  intro l
  induction l with
  | nil =>
    intro _
    rw [List.nil_append, splitOnC, if_pos rfl]
  | cons c t ih =>
    intro h
    rw [List.cons_append, splitOnC,
      if_neg (fun hc => h (by rw [hc]; exact List.mem_cons_self sep t))]
    rw [ih (fun hm => h (List.mem_cons_of_mem c hm))]

theorem splitNl_joinNl : ∀ ls : List Line, ls ≠ [] → (∀ l ∈ ls, '\n' ∉ l) →
    splitNl (joinNl ls) = ls := by
  intro ls
  induction ls with
  | nil => intro h; exact absurd rfl h
  | cons l r ih =>
    intro _ hmem
    cases r with
    | nil =>
      rw [joinNl]
      exact splitOnC_no_sep '\n' l (hmem l (List.mem_cons_self l []))
    | cons x xs =>
      rw [joinNl, splitNl, splitOnC_append_sep '\n' (joinNl (x :: xs)) l
        (hmem l (List.mem_cons_self l (x :: xs)))]
      rw [show splitOnC '\n' (joinNl (x :: xs)) = splitNl (joinNl (x :: xs)) from rfl]
      rw [ih (List.cons_ne_nil x xs) (fun y hy => hmem y (List.mem_cons_of_mem l hy))]
      exact fun h => (List.cons_ne_nil x xs) h

/-- C8: insertion is splice-only and duplicate-guarded — on a duplicate
(trimmed-equal) line the operation returns `none` before any write and the
file is untouched; otherwise the written file is exactly the old lines with
the new line spliced in at the computed index (every existing line verbatim
and in order), and a second run with the same line is a no-op. -/
theorem c8_guarded_splice (content imp : Line) (hnl : '\n' ∉ imp) :
    (lineExistsInFile content imp = true → addImportIfAbsent content imp = none) ∧
    (lineExistsInFile content imp = false →
      ∃ c', addImportIfAbsent content imp = some c' ∧
        splitNl c' = insertAtIdx (findInsertIndex (splitNl content)) imp (splitNl content) ∧
        addImportIfAbsent c' imp = none) := by
  constructor
  · intro h
    simp [addImportIfAbsent, h]
  · intro h
    have hsplit : splitNl (addImportToFile content imp) =
        insertAtIdx (findInsertIndex (splitNl content)) imp (splitNl content) := by
      unfold addImportToFile
      apply splitNl_joinNl
      · simp [insertAtIdx]
      · intro x hx
        unfold insertAtIdx at hx
        rcases List.mem_append.mp hx with hx | hx
        · exact mem_splitOnC_no_sep '\n' content x (List.take_subset _ _ hx)
        · rcases List.mem_cons.mp hx with hx | hx
          · rw [hx]; exact hnl
          · exact mem_splitOnC_no_sep '\n' content x (List.drop_subset _ _ hx)
    have hmem : imp ∈ splitNl (addImportToFile content imp) := by
      rw [hsplit]
      simp [insertAtIdx]
    have hdup : lineExistsInFile (addImportToFile content imp) imp = true := by
      unfold lineExistsInFile
      rw [List.any_eq_true]
      exact ⟨imp, hmem, by simp⟩
    refine ⟨addImportToFile content imp, by simp [addImportIfAbsent, h], hsplit, ?_⟩
    simp [addImportIfAbsent, hdup]

/-- Witness for C8 on the block-comment file and the `Baz` import line:
the line is absent, gets spliced in, and a second run is a no-op. -/
theorem c8_guarded_splice_witness :
    ('\n' ∉ bazImport ∧ lineExistsInFile c7File bazImport = false) ∧
    (∃ c', addImportIfAbsent c7File bazImport = some c' ∧
      splitNl c' = insertAtIdx (findInsertIndex (splitNl c7File)) bazImport (splitNl c7File) ∧
      addImportIfAbsent c' bazImport = none) := by
  exact ⟨⟨by decide, by decide⟩,
    (c8_guarded_splice c7File bazImport (by decide)).2 (by decide)⟩

theorem scanLeft_le (line : Line) : ∀ i, scanLeft line i ≤ i := by
  intro i
  induction i with
  | zero => exact le_rfl
  | succ n ih =>
    rw [scanLeft]
    split
    · exact le_trans ih (Nat.le_succ n)
    · exact le_rfl

theorem scanLeft_word (line : Line) :
    ∀ i j, scanLeft line i ≤ j → j < i → isWordChar (line.getD j ' ') = true := by
  intro i
  induction i with
  | zero => intro j _ h2; omega
  | succ n ih =>
    intro j h1 h2
    rw [scanLeft] at h1
    split at h1
    · rename_i hw
      by_cases hj : j = n
      · rw [hj]; exact hw
      · exact ih j h1 (by omega)
    · omega

theorem scanLeft_boundary (line : Line) :
    ∀ i, scanLeft line i = 0 ∨ isWordChar (line.getD (scanLeft line i - 1) ' ') = false := by
  intro i
  induction i with
  | zero => exact Or.inl rfl
  | succ n ih =>
    rw [scanLeft]
    split
    · exact ih
    · rename_i hw
      rw [Bool.not_eq_true] at hw
      right
      simpa using hw

theorem scanRightAux_ge (line : Line) :
    ∀ d i, i ≤ scanRightAux line d i := by
  intro d
  induction d with
  | zero => intro i; exact le_rfl
  | succ n ih =>
    intro i
    rw [scanRightAux]
    split
    · exact le_trans (Nat.le_succ i) (ih (i + 1))
    · exact le_rfl

theorem scanRight_ge (line : Line) (i : Nat) : i ≤ scanRight line i :=
  scanRightAux_ge line _ i

theorem scanRightAux_lt (line : Line) :
    ∀ d i, i < line.length → scanRightAux line d i < line.length := by
  intro d
  induction d with
  | zero => intro i hi; exact hi
  | succ n ih =>
    intro i hi
    rw [scanRightAux]
    split
    · rename_i hc
      simp only [Bool.and_eq_true, decide_eq_true_eq] at hc
      exact ih (i + 1) (by omega)
    · exact hi

theorem scanRight_lt (line : Line) (i : Nat) (hi : i < line.length) :
    scanRight line i < line.length :=
  scanRightAux_lt line _ i hi

theorem scanRightAux_word (line : Line) :
    ∀ d i j, i < j → j ≤ scanRightAux line d i → isWordChar (line.getD j ' ') = true := by
  intro d
  induction d with
  | zero =>
    intro i j hj1 hj2
    rw [scanRightAux] at hj2
    omega
  | succ n ih =>
    intro i j hj1 hj2
    rw [scanRightAux] at hj2
    split at hj2
    · rename_i hc
      simp only [Bool.and_eq_true, decide_eq_true_eq] at hc
      by_cases hji : j = i + 1
      · rw [hji]; exact hc.2
      · exact ih (i + 1) j (by omega) hj2
    · omega

theorem scanRight_word (line : Line) (i : Nat) :
    ∀ j, i < j → j ≤ scanRight line i → isWordChar (line.getD j ' ') = true :=
  scanRightAux_word line _ i

theorem scanRightAux_boundary (line : Line) :
    ∀ d i, line.length - 1 - i ≤ d → i < line.length →
      scanRightAux line d i = line.length - 1 ∨
        isWordChar (line.getD (scanRightAux line d i + 1) ' ') = false := by
  intro d
  induction d with
  | zero =>
    intro i h hi
    rw [scanRightAux]
    exact Or.inl (by omega)
  | succ n ih =>
    intro i h hi
    rw [scanRightAux]
    split
    · rename_i hc
      simp only [Bool.and_eq_true, decide_eq_true_eq] at hc
      exact ih (i + 1) (by omega) (by omega)
    · rename_i hc
      simp only [Bool.and_eq_true, not_and, decide_eq_true_eq, Bool.not_eq_true] at hc
      by_cases hlen : i < line.length - 1
      · exact Or.inr (hc hlen)
      · exact Or.inl (by omega)

theorem scanRight_boundary (line : Line) (i : Nat) (hi : i < line.length) :
    scanRight line i = line.length - 1 ∨
      isWordChar (line.getD (scanRight line i + 1) ' ') = false :=
  scanRightAux_boundary line _ i le_rfl hi

/-- C10: symbol extraction at a 1-indexed (row, col) returns `none` when the
row is out of range, the column is out of range for that line, or the
character there is not in `[A-Za-z0-9_$]`; on a valid hit it returns the
maximal contiguous identifier run containing the position, which never
crosses a non-identifier character (and the function is total, so it never
throws). -/
theorem c10_symbol_extraction (content : Line) (row col : Int) :
    ((row - 1 < 0 ∨ ((splitNl content).length : Int) ≤ row - 1) →
      getSymbolAtPosition content row col = none) ∧
    (∀ line : Line,
      ¬(row - 1 < 0 ∨ ((splitNl content).length : Int) ≤ row - 1) →
      line = (splitNl content).getD (row - 1).toNat [] →
      ((col - 1 < 0 ∨ (line.length : Int) ≤ col - 1) →
        getSymbolAtPosition content row col = none) ∧
      (¬(col - 1 < 0 ∨ (line.length : Int) ≤ col - 1) →
        (isWordChar (line.getD (col - 1).toNat ' ') = false →
          getSymbolAtPosition content row col = none) ∧
        (isWordChar (line.getD (col - 1).toNat ' ') = true →
          ∃ s e : Nat, s ≤ (col - 1).toNat ∧ (col - 1).toNat ≤ e ∧ e < line.length ∧
            getSymbolAtPosition content row col = some ((line.take (e + 1)).drop s) ∧
            (∀ j, s ≤ j → j ≤ e → isWordChar (line.getD j ' ') = true) ∧
            (s = 0 ∨ isWordChar (line.getD (s - 1) ' ') = false) ∧
            (e = line.length - 1 ∨ isWordChar (line.getD (e + 1) ' ') = false)))) := by
  constructor
  · intro h
    unfold getSymbolAtPosition
    dsimp only
    rw [if_pos (by simpa using h)]
  · intro line hrow hline
    have hb1 : (decide (row - 1 < 0) ||
        decide (((splitNl content).length : Int) ≤ row - 1)) = false := by
      simpa using hrow
    constructor
    · intro hcol
      unfold getSymbolAtPosition
      dsimp only
      rw [if_neg (by rw [hb1]; simp), ← hline]
      rw [if_pos (by simpa using hcol)]
    · intro hcol
      have hb2 : (decide (col - 1 < 0) || decide ((line.length : Int) ≤ col - 1)) = false := by
        simpa using hcol
      have hci : (col - 1).toNat < line.length := by
        rcases not_or.mp hcol with ⟨h1, h2⟩
        omega
      constructor
      · intro hw
        unfold getSymbolAtPosition
        dsimp only
        rw [if_neg (by rw [hb1]; simp), ← hline]
        rw [if_neg (by rw [hb2]; simp)]
        rw [if_pos (by rw [hw]; rfl)]
      · intro hw
        refine ⟨scanLeft line (col - 1).toNat, scanRight line (col - 1).toNat,
          scanLeft_le line _, scanRight_ge line _, scanRight_lt line _ hci, ?_, ?_, ?_, ?_⟩
        · unfold getSymbolAtPosition
          dsimp only
          rw [if_neg (by rw [hb1]; simp), ← hline]
          rw [if_neg (by rw [hb2]; simp)]
          rw [if_neg (by rw [hw]; simp)]
        · intro j hj1 hj2
          rcases lt_trichotomy j ((col - 1).toNat) with hj | hj | hj
          · exact scanLeft_word line _ j hj1 hj
          · rw [hj]; exact hw
          · exact scanRight_word line _ j hj hj2
        · exact scanLeft_boundary line _
        · exact scanRight_boundary line _ hci

/-- Witness for C10 on `const x = getUser(id);`: position (1, 11) — the
first character of `getUser` — yields the maximal run, and the function
indeed returns `some "getUser"`; position (1, 6) is a space and yields
`none`. -/
theorem c10_symbol_extraction_witness :
    (¬((1 : Int) - 1 < 0 ∨ ((splitNl symFile).length : Int) ≤ (1 : Int) - 1) ∧
      ¬((11 : Int) - 1 < 0 ∨ ((symFile.length : Int) ≤ (11 : Int) - 1)) ∧
      isWordChar (symFile.getD ((11 : Int) - 1).toNat ' ') = true) ∧
    (∃ s e : Nat, s ≤ ((11 : Int) - 1).toNat ∧ ((11 : Int) - 1).toNat ≤ e ∧
      e < symFile.length ∧
      getSymbolAtPosition symFile 1 11 = some ((symFile.take (e + 1)).drop s) ∧
      (∀ j, s ≤ j → j ≤ e → isWordChar (symFile.getD j ' ') = true) ∧
      (s = 0 ∨ isWordChar (symFile.getD (s - 1) ' ') = false) ∧
      (e = symFile.length - 1 ∨ isWordChar (symFile.getD (e + 1) ' ') = false)) ∧
    getSymbolAtPosition symFile 1 11 = some "getUser".data ∧
    getSymbolAtPosition symFile 1 6 = none := by
  refine ⟨⟨by decide, by decide, by decide⟩, ?_, by decide, by decide⟩
  exact (((c10_symbol_extraction symFile 1 11).2 symFile (by decide) (by decide)).2
    (by decide)).2 (by decide)

theorem batchLe_total (a b : Line × Int) : batchLe a b = true ∨ batchLe b a = true := by
  unfold batchLe
  simp only [Bool.or_eq_true, Bool.and_eq_true, decide_eq_true_eq]
  omega

theorem batchLe_trans (a b c : Line × Int)
    (h1 : batchLe a b = true) (h2 : batchLe b c = true) : batchLe a c = true := by
  unfold batchLe at h1 h2 ⊢
  simp only [Bool.or_eq_true, Bool.and_eq_true, decide_eq_true_eq] at h1 h2 ⊢
  omega

theorem batchLe_iff (a b : Line × Int) : batchLe a b = true ↔ rankedBefore a b := by
  unfold batchLe rankedBefore
  simp only [Bool.or_eq_true, Bool.and_eq_true, decide_eq_true_eq]

theorem mem_insertRanked (x : Line × Int) :
    ∀ (l : List (Line × Int)) (y : Line × Int), y ∈ insertRanked x l ↔ y = x ∨ y ∈ l := by
  intro l
  induction l with
  | nil => intro y; simp [insertRanked]
  | cons z t ih =>
    intro y
    rw [insertRanked]
    split
    · simp [List.mem_cons]
    · rw [List.mem_cons, ih y, List.mem_cons]
      tauto

theorem perm_insertRanked (x : Line × Int) :
    ∀ l : List (Line × Int), (insertRanked x l).Perm (x :: l) := by
  intro l
  induction l with
  | nil => exact List.Perm.refl _
  | cons z t ih =>
    rw [insertRanked]
    split
    · exact List.Perm.refl _
    · exact List.Perm.trans (List.Perm.cons z ih) (List.Perm.swap x z t)

theorem sortBatch_perm : ∀ b : List (Line × Int), (sortBatch b).Perm b := by
  intro b
  induction b with
  | nil => exact List.Perm.refl _
  | cons x t ih =>
    have : sortBatch (x :: t) = insertRanked x (sortBatch t) := rfl
    rw [this]
    exact List.Perm.trans (perm_insertRanked x (sortBatch t)) (List.Perm.cons x ih)

theorem pairwise_insertRanked (x : Line × Int) :
    ∀ l : List (Line × Int), l.Pairwise (fun a b => batchLe a b = true) →
      (insertRanked x l).Pairwise (fun a b => batchLe a b = true) := by
  intro l
  induction l with
  | nil => intro _; exact List.pairwise_singleton _ x
  | cons z t ih =>
    intro h
    rw [insertRanked]
    split
    · rename_i hxz
      refine List.Pairwise.cons ?_ h
      intro y hy
      rcases List.mem_cons.mp hy with hy | hy
      · rw [hy]; exact hxz
      · exact batchLe_trans x z y hxz (List.rel_of_pairwise_cons h hy)
    · rename_i hxz
      refine List.Pairwise.cons ?_ (ih (List.Pairwise.of_cons h))
      intro y hy
      rcases (mem_insertRanked x t y).mp hy with hy | hy
      · rw [hy]
        rcases batchLe_total x z with hc | hc
        · exact absurd hc hxz
        · exact hc
      · exact List.rel_of_pairwise_cons h hy

theorem sortBatch_sorted (b : List (Line × Int)) :
    (sortBatch b).Pairwise rankedBefore := by
  have h : ∀ l : List (Line × Int), (sortBatch l).Pairwise (fun a b => batchLe a b = true) := by
    intro l
    induction l with
    | nil => exact List.Pairwise.nil
    | cons x t ih => exact pairwise_insertRanked x (sortBatch t) ih
  exact (h b).imp (fun hab => (batchLe_iff _ _).mp hab)

theorem neTrims_append (a b : List Line) : neTrims (a ++ b) = neTrims a ++ neTrims b := by
  unfold neTrims
  rw [List.map_append, List.filter_append]

theorem neTrims_single_empty (l : Line) (h : trimChars l = []) : neTrims [l] = [] := by
  unfold neTrims
  simp [h]

theorem neTrims_single_ne (l : Line) (h : trimChars l ≠ []) : neTrims [l] = [trimChars l] := by
  unfold neTrims
  simp [h]

theorem neTrims_map_fst (b : List (Line × Int)) (h : ∀ p ∈ b, trimChars p.1 ≠ []) :
    neTrims (b.map Prod.fst) = batchTrims b := by
  induction b with
  | nil => rfl
  | cons x t ih =>
    have hx := h x (List.mem_cons_self x t)
    rw [List.map_cons, show (x.1 :: t.map Prod.fst) = [x.1] ++ t.map Prod.fst from rfl,
      neTrims_append, neTrims_single_ne x.1 hx,
      ih (fun p hp => h p (List.mem_cons_of_mem x hp))]
    rfl

theorem batchTrims_append (a b : List (Line × Int)) :
    batchTrims (a ++ b) = batchTrims a ++ batchTrims b := by
  unfold batchTrims
  rw [List.map_append]

theorem batchTrims_perm (a b : List (Line × Int)) (h : a.Perm b) :
    (batchTrims a).Perm (batchTrims b) :=
  h.map _

theorem nodup_append_one (L : List Line) (t : Line) (h1 : L.Nodup) (h2 : t ∉ L) :
    (L ++ [t]).Nodup := by
  rw [List.nodup_append]
  refine ⟨h1, List.nodup_singleton t, ?_⟩
  intro a ha hb
  rw [List.mem_singleton] at hb
  rw [hb] at ha
  exact h2 ha

theorem rel_nil : isRelativeImport [] = false := by decide

theorem contains_false_not_mem (l : List Line) (t : Line) (h : l.contains t = false) :
    t ∉ l := by
  intro hmem
  have : l.contains t = true := List.elem_iff.mpr hmem
  rw [this] at h
  cases h

theorem neTrims_nil : neTrims [] = [] := rfl

theorem batchTrims_nil : batchTrims [] = [] := rfl

theorem batchTrims_single (l : Line) (v : Int) : batchTrims [(l, v)] = [trimChars l] := rfl

theorem DInv_buffer (kw : Line) (s : DState) (outs : List (List Line)) (uniq : List Line)
    (buf : Line) (h : DInv kw s outs uniq) :
    DInv kw ⟨s.seen, buf, s.cache, s.batch⟩ outs uniq := by
  obtain ⟨h1, h2, h3, h4, h5, h6, h7, h8, h9, h10⟩ := h
  exact ⟨h1, h2, h3, h4, h5, h6, h7, h8, h9, h10⟩

theorem DInv_emit_uniq (kw : Line) (s : DState) (outs : List (List Line)) (uniq : List Line)
    (h : DInv kw s outs uniq) : DInv kw s (outs ++ [uniq]) [] := by
  obtain ⟨h1, h2, h3, h4, h5, h6, h7, h8, h9, h10⟩ := h
  refine ⟨?_, ?_, ?_, h4, h5, h6, h7, h8, h9, fun _ => rfl⟩
  · simpa [List.flatten_append, neTrims_append, neTrims_nil, List.append_assoc] using h1
  · intro t ht
    apply h2
    simpa [List.flatten_append, neTrims_append, neTrims_nil, List.append_assoc] using ht
  · intro l hl
    apply h3
    simpa [List.flatten_append, List.append_assoc] using hl

theorem step_add_empty_uniq (kw : Line) (s : DState) (outs : List (List Line))
    (uniq : List Line) (line : Line) (h : DInv kw s outs uniq) (hkw : kw = [])
    (ht : trimChars line = []) : DInv kw s outs (uniq ++ [line]) := by
  obtain ⟨h1, h2, h3, h4, h5, h6, h7, h8, h9, h10⟩ := h
  refine ⟨?_, ?_, ?_, h4, h5, h6, h7, h8, h9, fun hk => absurd hkw hk⟩
  · simpa [neTrims_append, neTrims_single_empty line ht] using h1
  · intro t hmem
    apply h2
    simpa [neTrims_append, neTrims_single_empty line ht] using hmem
  · intro l hl
    simp only [← List.append_assoc, List.mem_append, List.mem_singleton] at hl
    rcases hl with hl | hl
    · exact h3 l (by simpa using hl)
    · rw [hl, ht]
      exact rel_nil

theorem step_add_to_uniq (kw : Line) (s : DState) (outs : List (List Line))
    (uniq : List Line) (line : Line) (h : DInv kw s outs uniq) (hkw : kw = [])
    (ht : trimChars line ≠ []) (hrel : isRelativeImport (trimChars line) = false)
    (hseen : s.seen.contains (trimChars line) = false) :
    DInv kw { s with seen := trimChars line :: s.seen } outs (uniq ++ [line]) := by
  obtain ⟨h1, h2, h3, h4, h5, h6, h7, h8, h9, h10⟩ := h
  have hb : s.batch = [] := h9 hkw
  have hnm : trimChars line ∉
      neTrims outs.flatten ++ (neTrims uniq ++ batchTrims s.batch) :=
    fun hm => (contains_false_not_mem s.seen _ hseen) (h2 _ hm)
  refine ⟨?_, ?_, ?_, ?_, ?_, ?_, ?_, h8, ?_, fun hk => absurd hkw hk⟩
  · dsimp only
    rw [hb, batchTrims_nil] at h1 hnm ⊢
    rw [neTrims_append, neTrims_single_ne line ht]
    rw [List.append_nil] at h1 hnm ⊢
    rw [← List.append_assoc]
    apply nodup_append_one _ _ (by simpa using h1)
    simpa using hnm
  · dsimp only
    intro x hx
    rw [hb, batchTrims_nil, neTrims_append, neTrims_single_ne line ht] at hx
    simp only [List.append_nil, List.mem_append, List.mem_singleton] at hx
    rcases hx with hx | hx | hx
    · exact List.mem_cons_of_mem _ (h2 x (by rw [hb, batchTrims_nil]; simp [hx]))
    · exact List.mem_cons_of_mem _ (h2 x (by rw [hb, batchTrims_nil]; simp [hx]))
    · rw [hx]; exact List.mem_cons_self _ _
  · intro l hl
    simp only [← List.append_assoc, List.mem_append, List.mem_singleton] at hl
    rcases hl with hl | hl
    · exact h3 l (by simpa using hl)
    · rw [hl]; exact hrel
  · dsimp only; exact h4
  · dsimp only; exact h5
  · dsimp only; exact h6
  · dsimp only; exact h7
  · dsimp only; exact h9

theorem step_add_to_batch (kw : Line) (s : DState) (outs : List (List Line)) (line : Line)
    (h : DInv kw s outs []) (hkw : kw ≠ [])
    (ht : trimChars line ≠ []) (hrel : isRelativeImport (trimChars line) = false)
    (hseen : s.seen.contains (trimChars line) = false)
    (hlen : (s.batch ++ [(line, (getScore kw s.cache (trimChars line)).1)]).length < BATCH_SIZE) :
    DInv kw
      { s with
          seen := trimChars line :: s.seen,
          cache := (getScore kw s.cache (trimChars line)).2,
          batch := s.batch ++ [(line, (getScore kw s.cache (trimChars line)).1)] }
      outs [] := by
  obtain ⟨h1, h2, h3, h4, h5, h6, h7, h8, h9, h10⟩ := h
  have hgs := getScore_ok kw s.cache (trimChars line) h8
  have hnm : trimChars line ∉ neTrims outs.flatten ++ (neTrims [] ++ batchTrims s.batch) :=
    fun hm => (contains_false_not_mem s.seen _ hseen) (h2 _ hm)
  simp only [neTrims_nil, List.nil_append] at h1 h2 hnm
  refine ⟨?_, ?_, ?_, ?_, ?_, ?_, ?_, hgs.2, fun hk => absurd hk hkw, fun _ => rfl⟩
  · dsimp only
    rw [batchTrims_append, batchTrims_single]
    simp only [neTrims_nil, List.nil_append]
    rw [← List.append_assoc]
    exact nodup_append_one _ _ h1 hnm
  · dsimp only
    intro x hx
    simp only [batchTrims_append, batchTrims_single, neTrims_nil, List.nil_append,
      List.mem_append, List.mem_singleton] at hx
    rcases hx with hx | hx | hx
    · exact List.mem_cons_of_mem _ (h2 x (by simp [hx]))
    · exact List.mem_cons_of_mem _ (h2 x (by simp [hx]))
    · rw [hx]; exact List.mem_cons_self _ _
  · intro l hl
    exact h3 l hl
  · dsimp only
    intro p hp
    rcases List.mem_append.mp hp with hp | hp
    · exact h4 p hp
    · rw [List.mem_singleton] at hp
      rw [hp]
      exact ht
  · dsimp only
    intro p hp
    rcases List.mem_append.mp hp with hp | hp
    · exact h5 p hp
    · rw [List.mem_singleton] at hp
      rw [hp]
      exact hrel
  · dsimp only
    intro p hp
    rcases List.mem_append.mp hp with hp | hp
    · exact h6 p hp
    · rw [List.mem_singleton] at hp
      rw [hp]
      exact hgs.1
  · dsimp only
    exact hlen

theorem emit_new_line (kw : Line) (s : DState) (outs : List (List Line)) (line : Line)
    (h : DInv kw s outs []) (_hkw : kw ≠ [])
    (ht : trimChars line ≠ []) (hrel : isRelativeImport (trimChars line) = false)
    (hseen : s.seen.contains (trimChars line) = false) :
    DInv kw
      { s with
          seen := trimChars line :: s.seen,
          cache := (getScore kw s.cache (trimChars line)).2,
          batch := [] }
      (outs ++
        [(sortBatch (s.batch ++ [(line, (getScore kw s.cache (trimChars line)).1)])).map
          Prod.fst]) [] ∧
    ScoredSortedChunk kw
      ((sortBatch (s.batch ++ [(line, (getScore kw s.cache (trimChars line)).1)])).map
        Prod.fst) ∧
    ((sortBatch (s.batch ++ [(line, (getScore kw s.cache (trimChars line)).1)])).map
      Prod.fst).length = s.batch.length + 1 := by
  obtain ⟨h1, h2, h3, h4, h5, h6, h7, h8, h9, h10⟩ := h
  have hgs := getScore_ok kw s.cache (trimChars line) h8
  simp only [neTrims_nil, List.nil_append] at h1 h2
  have hnm : trimChars line ∉ neTrims outs.flatten ++ batchTrims s.batch :=
    fun hm => (contains_false_not_mem s.seen _ hseen) (h2 _ hm)
  have hsp := sortBatch_perm (s.batch ++ [(line, (getScore kw s.cache (trimChars line)).1)])
  have hbne : ∀ p ∈ s.batch ++ [(line, (getScore kw s.cache (trimChars line)).1)],
      trimChars p.1 ≠ [] := by
    intro p hp
    rcases List.mem_append.mp hp with hp | hp
    · exact h4 p hp
    · rw [List.mem_singleton] at hp
      rw [hp]
      exact ht
  have hneb : neTrims
      ((sortBatch (s.batch ++ [(line, (getScore kw s.cache (trimChars line)).1)])).map
        Prod.fst) =
      batchTrims (sortBatch (s.batch ++ [(line, (getScore kw s.cache (trimChars line)).1)])) :=
    neTrims_map_fst _ (fun p hp => hbne p (hsp.mem_iff.mp hp))
  have hbt : batchTrims (s.batch ++ [(line, (getScore kw s.cache (trimChars line)).1)]) =
      batchTrims s.batch ++ [trimChars line] := by
    rw [batchTrims_append, batchTrims_single]
  have hperm2 : (batchTrims
      (sortBatch (s.batch ++ [(line, (getScore kw s.cache (trimChars line)).1)]))).Perm
      (batchTrims s.batch ++ [trimChars line]) := by
    rw [← hbt]
    exact batchTrims_perm _ _ hsp
  have hnodupBt : (neTrims outs.flatten ++ (batchTrims s.batch ++ [trimChars line])).Nodup := by
    rw [← List.append_assoc]
    exact nodup_append_one _ _ h1 hnm
  refine ⟨⟨?_, ?_, ?_, fun p hp => absurd hp (List.not_mem_nil p),
      fun p hp => absurd hp (List.not_mem_nil p), fun p hp => absurd hp (List.not_mem_nil p),
      by dsimp only; decide, hgs.2, fun _ => rfl, fun _ => rfl⟩, ?_, ?_⟩
  · dsimp only
    simp only [List.flatten_append, List.flatten_cons, List.flatten_nil, List.append_nil,
      neTrims_append, neTrims_nil, batchTrims_nil]
    have hp3 : (neTrims outs.flatten ++ (batchTrims s.batch ++ [trimChars line])).Perm
        (neTrims outs.flatten ++ neTrims
          ((sortBatch (s.batch ++ [(line, (getScore kw s.cache (trimChars line)).1)])).map
            Prod.fst)) := by
      rw [hneb]
      exact List.Perm.append_left _ hperm2.symm
    exact hp3.nodup hnodupBt
  · dsimp only
    intro x hx
    simp only [List.flatten_append, List.flatten_cons, List.flatten_nil, List.append_nil,
      neTrims_append, neTrims_nil, batchTrims_nil, List.mem_append] at hx
    rcases hx with hx | hx
    · exact List.mem_cons_of_mem _ (h2 x (List.mem_append.mpr (Or.inl hx)))
    · rw [hneb] at hx
      have := hperm2.mem_iff.mp hx
      rcases List.mem_append.mp this with hx2 | hx2
      · exact List.mem_cons_of_mem _ (h2 x (List.mem_append.mpr (Or.inr hx2)))
      · rw [List.mem_singleton] at hx2
        rw [hx2]
        exact List.mem_cons_self _ _
  · intro l hl
    simp only [List.append_nil, List.flatten_append, List.flatten_cons, List.flatten_nil,
      List.mem_append] at hl
    rcases hl with hl | hl
    · exact h3 l (by simpa using hl)
    · rcases List.mem_map.mp hl with ⟨p, hp, hpl⟩
      rcases List.mem_append.mp (hsp.mem_iff.mp hp) with hp2 | hp2
      · rw [← hpl]
        exact h5 p hp2
      · rw [List.mem_singleton] at hp2
        rw [← hpl, hp2]
        exact hrel
  · exact ⟨sortBatch (s.batch ++ [(line, (getScore kw s.cache (trimChars line)).1)]), rfl,
      sortBatch_sorted _, by
        intro x hx
        rcases List.mem_append.mp (hsp.mem_iff.mp hx) with hx2 | hx2
        · exact h6 x hx2
        · rw [List.mem_singleton] at hx2
          rw [hx2]
          exact hgs.1⟩
  · rw [List.length_map, hsp.length_eq, List.length_append, List.length_singleton]

theorem emit_batch (kw : Line) (s : DState) (outs : List (List Line))
    (h : DInv kw s outs []) (_hkw : kw ≠ []) :
    DInv kw { s with batch := [] } (outs ++ [(sortBatch s.batch).map Prod.fst]) [] ∧
    ScoredSortedChunk kw ((sortBatch s.batch).map Prod.fst) ∧
    ((sortBatch s.batch).map Prod.fst).length = s.batch.length := by
  obtain ⟨h1, h2, h3, h4, h5, h6, h7, h8, h9, h10⟩ := h
  simp only [neTrims_nil, List.nil_append] at h1 h2
  have hsp := sortBatch_perm s.batch
  have hneb : neTrims ((sortBatch s.batch).map Prod.fst) = batchTrims (sortBatch s.batch) :=
    neTrims_map_fst _ (fun p hp => h4 p (hsp.mem_iff.mp hp))
  have hperm2 : (batchTrims (sortBatch s.batch)).Perm (batchTrims s.batch) :=
    batchTrims_perm _ _ hsp
  refine ⟨⟨?_, ?_, ?_, fun p hp => absurd hp (List.not_mem_nil p),
      fun p hp => absurd hp (List.not_mem_nil p), fun p hp => absurd hp (List.not_mem_nil p),
      by dsimp only; decide, h8, fun _ => rfl, fun _ => rfl⟩, ?_, ?_⟩
  · dsimp only
    simp only [List.flatten_append, List.flatten_cons, List.flatten_nil, List.append_nil,
      neTrims_append, neTrims_nil, batchTrims_nil]
    have hp3 : (neTrims outs.flatten ++ batchTrims s.batch).Perm
        (neTrims outs.flatten ++ neTrims ((sortBatch s.batch).map Prod.fst)) := by
      rw [hneb]
      exact List.Perm.append_left _ hperm2.symm
    exact hp3.nodup h1
  · dsimp only
    intro x hx
    simp only [List.flatten_append, List.flatten_cons, List.flatten_nil, List.append_nil,
      neTrims_append, neTrims_nil, batchTrims_nil, List.mem_append] at hx
    rcases hx with hx | hx
    · exact h2 x (List.mem_append.mpr (Or.inl hx))
    · rw [hneb] at hx
      exact h2 x (List.mem_append.mpr (Or.inr (hperm2.mem_iff.mp hx)))
  · intro l hl
    simp only [List.append_nil, List.flatten_append, List.flatten_cons, List.flatten_nil,
      List.mem_append] at hl
    rcases hl with hl | hl
    · exact h3 l (by simpa using hl)
    · rcases List.mem_map.mp hl with ⟨p, hp, hpl⟩
      rw [← hpl]
      exact h5 p (hsp.mem_iff.mp hp)
  · exact ⟨sortBatch s.batch, rfl, sortBatch_sorted _,
      fun x hx => h6 x (hsp.mem_iff.mp hx)⟩
  · rw [List.length_map, hsp.length_eq]

theorem dedupLoop_master (kw : Line) :
    ∀ (lines : List Line) (s : DState) (outs : List (List Line)) (uniq : List Line),
      DInv kw s outs uniq →
      DInv kw (dedupLoop kw lines s uniq).1
        (outs ++ optOuts (dedupLoop kw lines s uniq).2.2) (dedupLoop kw lines s uniq).2.1 ∧
      (∀ b, (dedupLoop kw lines s uniq).2.2 = some b →
        kw ≠ [] ∧ ScoredSortedChunk kw b ∧ b.length = BATCH_SIZE) := by
  intro lines
  induction lines with
  | nil =>
    intro s outs uniq h
    rw [dedupLoop]
    exact ⟨by simpa [optOuts] using h, fun b hb => by cases hb⟩
  | cons line rest ih =>
    intro s outs uniq h
    rw [dedupLoop]
    dsimp only
    by_cases ht : trimChars line ≠ []
    · rw [if_pos ht]
      by_cases hrel : isRelativeImport (trimChars line) = true
      · rw [if_pos hrel]
        exact ih s outs uniq h
      · rw [if_neg hrel]
        rw [Bool.not_eq_true] at hrel
        by_cases hseen : s.seen.contains (trimChars line) = true
        · rw [if_pos hseen]
          exact ih s outs uniq h
        · rw [if_neg hseen]
          rw [Bool.not_eq_true] at hseen
          by_cases hkw : kw ≠ []
          · rw [if_pos hkw]
            have hu : uniq = [] := h.modeUniq hkw
            subst hu
            by_cases hfull : BATCH_SIZE ≤
                (s.batch ++ [(line, (getScore kw s.cache (trimChars line)).1)]).length
            · rw [if_pos hfull]
              obtain ⟨hinv, hchunk, hlen⟩ := emit_new_line kw s outs line h hkw ht hrel hseen
              have hlt : s.batch.length < BATCH_SIZE := h.batchLt
              refine ⟨hinv, ?_⟩
              intro b hb
              rw [Option.some_inj] at hb
              rw [← hb]
              refine ⟨hkw, hchunk, ?_⟩
              rw [List.length_append, List.length_singleton] at hfull
              omega
            · rw [if_neg hfull]
              have hflt : (s.batch ++ [(line, (getScore kw s.cache (trimChars line)).1)]).length
                  < BATCH_SIZE := by omega
              exact ih _ outs [] (step_add_to_batch kw s outs line h hkw ht hrel hseen hflt)
          · rw [if_neg hkw]
            have hkw' : kw = [] := not_ne_iff.mp hkw
            exact ih _ outs _ (step_add_to_uniq kw s outs uniq line h hkw' ht hrel hseen)
    · rw [if_neg ht]
      have ht' : trimChars line = [] := not_ne_iff.mp ht
      by_cases hkw : kw = []
      · rw [if_pos hkw]
        exact ih s outs _ (step_add_empty_uniq kw s outs uniq line h hkw ht')
      · rw [if_neg hkw]
        exact ih s outs uniq h

theorem transformChunk_master (kw : Line) (s : DState) (outs : List (List Line)) (chunk : Line)
    (h : DInv kw s outs []) :
    DInv kw (transformChunk kw s chunk).1 (outs ++ (transformChunk kw s chunk).2) [] ∧
    (kw ≠ [] → ∀ b ∈ (transformChunk kw s chunk).2,
      ScoredSortedChunk kw b ∧ b.length = BATCH_SIZE) := by
  unfold transformChunk
  dsimp only
  have h0 : DInv kw
      { seen := s.seen, buffer := (splitNl (s.buffer ++ chunk)).getLast?.getD [],
        cache := s.cache, batch := s.batch } outs [] :=
    DInv_buffer kw s outs [] _ h
  obtain ⟨hinv, hsome⟩ :=
    dedupLoop_master kw (splitNl (s.buffer ++ chunk)).dropLast
      { seen := s.seen, buffer := (splitNl (s.buffer ++ chunk)).getLast?.getD [],
        cache := s.cache, batch := s.batch } outs [] h0
  cases hr : (dedupLoop kw (splitNl (s.buffer ++ chunk)).dropLast
      { seen := s.seen, buffer := (splitNl (s.buffer ++ chunk)).getLast?.getD [],
        cache := s.cache, batch := s.batch } []).2.2 with
  | some b =>
    rw [hr] at hinv
    obtain ⟨hkw, hssc, hlen⟩ := hsome b hr
    dsimp only
    have hu : (dedupLoop kw (splitNl (s.buffer ++ chunk)).dropLast
        { seen := s.seen, buffer := (splitNl (s.buffer ++ chunk)).getLast?.getD [],
          cache := s.cache, batch := s.batch } []).2.1 = [] :=
      hinv.modeUniq hkw
    rw [hu] at hinv
    refine ⟨by simpa [optOuts] using hinv, ?_⟩
    intro _ b' hb'
    rw [List.mem_singleton] at hb'
    rw [hb']
    exact ⟨hssc, hlen⟩
  | none =>
    rw [hr] at hinv
    simp only [optOuts, List.append_nil] at hinv
    dsimp only
    by_cases hc : (kw = [] &&
        (dedupLoop kw (splitNl (s.buffer ++ chunk)).dropLast
          { seen := s.seen, buffer := (splitNl (s.buffer ++ chunk)).getLast?.getD [],
            cache := s.cache, batch := s.batch } []).2.1 ≠ []) = true
    · rw [if_pos hc]
      simp only [Bool.and_eq_true, decide_eq_true_eq] at hc
      refine ⟨DInv_emit_uniq kw _ outs _ hinv, ?_⟩
      intro hkw
      exact absurd hc.1 hkw
    · rw [if_neg hc]
      simp only [Bool.and_eq_true, decide_eq_true_eq, not_and, ne_eq, not_not] at hc
      have hu : (dedupLoop kw (splitNl (s.buffer ++ chunk)).dropLast
          { seen := s.seen, buffer := (splitNl (s.buffer ++ chunk)).getLast?.getD [],
            cache := s.cache, batch := s.batch } []).2.1 = [] := by
        by_cases hkw : kw = []
        · exact hc hkw
        · exact hinv.modeUniq hkw
      rw [hu] at hinv
      refine ⟨by simpa using hinv, ?_⟩
      intro _ b hb
      exact absurd hb (List.not_mem_nil b)

theorem runChunks_master (kw : Line) :
    ∀ (chunks : List Line) (s : DState) (outs : List (List Line)),
      DInv kw s outs [] →
      DInv kw (runChunks kw s chunks).1 (outs ++ (runChunks kw s chunks).2) [] ∧
      (kw ≠ [] → ∀ b ∈ (runChunks kw s chunks).2,
        ScoredSortedChunk kw b ∧ b.length = BATCH_SIZE) := by
  intro chunks
  induction chunks with
  | nil =>
    intro s outs h
    rw [runChunks]
    exact ⟨by simpa using h, fun _ b hb => absurd hb (List.not_mem_nil b)⟩
  | cons c cs ih =>
    intro s outs h
    rw [runChunks]
    dsimp only
    obtain ⟨h1, h2⟩ := transformChunk_master kw s outs c h
    obtain ⟨h3, h4⟩ := ih (transformChunk kw s c).1 (outs ++ (transformChunk kw s c).2) h1
    constructor
    · simpa [List.append_assoc] using h3
    · intro hkw b hb
      rcases List.mem_append.mp hb with hb | hb
      · exact h2 hkw b hb
      · exact h4 hkw b hb

theorem flushStream_master (kw : Line) (s : DState) (outs : List (List Line))
    (h : DInv kw s outs []) :
    (neTrims (outs ++ (flushStream kw s).2).flatten).Nodup ∧
    (∀ l ∈ (outs ++ (flushStream kw s).2).flatten, isRelativeImport (trimChars l) = false) ∧
    (kw ≠ [] → ∀ b ∈ (flushStream kw s).2,
      ScoredSortedChunk kw b ∧ 1 ≤ b.length ∧ b.length ≤ BATCH_SIZE) ∧
    (flushStream kw s).1.batch = [] ∧
    ((flushStream kw s).2 = [] ∨ ∃ b, (flushStream kw s).2 = [b]) := by
  unfold flushStream
  dsimp only
  by_cases hc : (trimChars s.buffer ≠ [] && !isRelativeImport (trimChars s.buffer) &&
      !s.seen.contains (trimChars s.buffer)) = true
  · rw [if_pos hc]
    simp only [Bool.and_eq_true, Bool.not_eq_true', decide_eq_true_eq] at hc
    obtain ⟨⟨ht, hrel⟩, hseen⟩ := hc
    by_cases hkw : kw ≠ []
    · rw [if_pos hkw]
      obtain ⟨hinv, hssc, hlen⟩ := emit_new_line kw s outs s.buffer h hkw ht hrel hseen
      have hlt : s.batch.length < BATCH_SIZE := h.batchLt
      rw [emitBatchIfAny]
      dsimp only
      rw [if_pos (by
        simp only [Bool.and_eq_true, decide_eq_true_eq]
        exact ⟨hkw, by simp⟩)]
      obtain ⟨g1, g2, g3, g4, g5, g6, g7, g8, g9, g10⟩ := hinv
      refine ⟨?_, ?_, ?_, rfl, Or.inr ⟨_, rfl⟩⟩
      · simpa [neTrims_nil, batchTrims_nil] using g1
      · intro l hl
        exact g3 l (by simpa using hl)
      · intro _ b hb
        rw [List.mem_singleton] at hb
        rw [hb]
        refine ⟨hssc, ?_, ?_⟩
        · rw [hlen]; omega
        · rw [hlen]
          unfold BATCH_SIZE at hlt ⊢
          omega
    · rw [if_neg hkw]
      have hkw' : kw = [] := not_ne_iff.mp hkw
      obtain ⟨g1, g2, g3, g4, g5, g6, g7, g8, g9, g10⟩ := h
      have hb : s.batch = [] := g9 hkw'
      rw [hb, batchTrims_nil] at g1 g2
      simp only [neTrims_nil, List.nil_append, List.append_nil] at g1 g2
      have hnm : trimChars s.buffer ∉ neTrims outs.flatten :=
        fun hm => (contains_false_not_mem s.seen _ hseen) (g2 _ hm)
      refine ⟨?_, ?_, fun hk => absurd hkw' hk, ?_, Or.inr ⟨_, rfl⟩⟩
      · simp only [List.flatten_append, List.flatten_cons, List.flatten_nil, List.append_nil,
          neTrims_append, neTrims_single_ne s.buffer ht]
        exact nodup_append_one _ _ g1 hnm
      · intro l hl
        simp only [List.flatten_append, List.flatten_cons, List.flatten_nil, List.append_nil,
          List.mem_append, List.mem_singleton] at hl
        rcases hl with hl | hl
        · exact g3 l (by simpa using hl)
        · rw [hl]
          exact hrel
      · dsimp only
        exact hb
  · rw [if_neg hc]
    simp only [Bool.and_eq_true, Bool.not_eq_true', decide_eq_true_eq, not_and] at hc
    rw [emitBatchIfAny]
    by_cases hc2 : (kw ≠ [] && s.batch ≠ []) = true
    · rw [if_pos hc2]
      simp only [Bool.and_eq_true, decide_eq_true_eq] at hc2
      obtain ⟨hkw, hbne⟩ := hc2
      obtain ⟨hinv, hssc, hlen⟩ := emit_batch kw s outs h hkw
      have hlt : s.batch.length < BATCH_SIZE := h.batchLt
      obtain ⟨g1, g2, g3, g4, g5, g6, g7, g8, g9, g10⟩ := hinv
      refine ⟨?_, ?_, ?_, rfl, Or.inr ⟨_, rfl⟩⟩
      · simpa [neTrims_nil, batchTrims_nil] using g1
      · intro l hl
        exact g3 l (by simpa using hl)
      · intro _ b hb
        rw [List.mem_singleton] at hb
        rw [hb]
        refine ⟨hssc, ?_, ?_⟩
        · rw [hlen]
          have : s.batch.length ≠ 0 := fun h0 => hbne (List.length_eq_zero.mp h0)
          omega
        · rw [hlen]
          omega
    · rw [if_neg hc2]
      simp only [Bool.and_eq_true, decide_eq_true_eq, not_and, ne_eq, not_not] at hc2
      obtain ⟨g1, g2, g3, g4, g5, g6, g7, g8, g9, g10⟩ := h
      have hb : s.batch = [] := by
        by_cases hkw : kw = []
        · exact g9 hkw
        · exact hc2 hkw
      refine ⟨?_, ?_, ?_, hb, Or.inl rfl⟩
      · rw [hb, batchTrims_nil] at g1
        simp only [neTrims_nil, List.nil_append, List.append_nil] at g1
        simpa using g1
      · intro l hl
        exact g3 l (by simpa using hl)
      · intro _ b hb2
        exact absurd hb2 (List.not_mem_nil b)

theorem DInv_init (kw : Line) : DInv kw initDState [] [] := by
  refine ⟨by simp [neTrims_nil, batchTrims_nil, initDState], ?_, ?_, ?_, ?_, ?_, ?_, ?_,
    fun _ => rfl, fun _ => rfl⟩
  · intro t ht
    simp [neTrims_nil, batchTrims_nil, initDState] at ht
  · intro l hl
    simp [initDState] at hl
  · intro p hp
    simp [initDState] at hp
  · intro p hp
    simp [initDState] at hp
  · intro p hp
    simp [initDState] at hp
  · simp [initDState, BATCH_SIZE]
  · intro p hp
    simp [initDState] at hp

/-- C3 (amended): within one Rank Stage session, in either mode and
including the end-of-input flush, no two emitted lines with non-empty
trimmed text share the same trimmed text — the trimmed form is marked seen
on first emission and every later arrival with that trimmed form is
discarded.  (Empty lines, passed through verbatim in no-keyword mode, are
the only repeatable emissions.) -/
theorem c3_no_duplicate_trimmed (kw : Line) (chunks : List Line) :
    (neTrims (runSession kw chunks).flatten).Nodup := by
  obtain ⟨h1, _⟩ := runChunks_master kw chunks initDState [] (DInv_init kw)
  obtain ⟨g1, _, _, _, _⟩ := flushStream_master kw (runChunks kw initDState chunks).1
    (runChunks kw initDState chunks).2 (by simpa using h1)
  unfold runSession
  exact g1

/-- C1 (amended): the Rank Stage never emits a line whose trimmed text
contains `from './` or `from '../` (the single-quoted, single-spaced
spelling its filter checks); relative imports written with double quotes or
other spacing are not filtered (see the counterexample). -/
theorem c1_no_single_quoted_relative (kw : Line) (chunks : List Line) (l : Line)
    (hl : l ∈ (runSession kw chunks).flatten) :
    isRelativeImport (trimChars l) = false := by
  obtain ⟨h1, _⟩ := runChunks_master kw chunks initDState [] (DInv_init kw)
  obtain ⟨_, g2, _, _, _⟩ := flushStream_master kw (runChunks kw initDState chunks).1
    (runChunks kw initDState chunks).2 (by simpa using h1)
  unfold runSession at hl
  exact g2 l hl

/-- Witness for C1 on a session that emits one ordinary line. -/
theorem c1_no_single_quoted_relative_witness :
    ("a".data ∈ (runSession [] ["a\n".data]).flatten) ∧
    isRelativeImport (trimChars "a".data) = false :=
  ⟨by decide, c1_no_single_quoted_relative [] ["a\n".data] "a".data (by decide)⟩

/-- C4: in keyword mode every emitted chunk is a batch of at most 20 lines
(exactly 20 for every chunk except possibly the final flush), sorted
descending by the relevance score of its trimmed text with ties broken by
shorter raw line first, and after every flush the batch buffer is empty. -/
theorem c4_ranked_batches (kw : Line) (chunks : List Line) (hkw : kw ≠ []) :
    (∀ b ∈ runSession kw chunks,
      ScoredSortedChunk kw b ∧ 1 ≤ b.length ∧ b.length ≤ BATCH_SIZE) ∧
    (∀ b ∈ (runSession kw chunks).dropLast, b.length = BATCH_SIZE) ∧
    (runSessionState kw chunks).batch = [] := by
  obtain ⟨h1, h2⟩ := runChunks_master kw chunks initDState [] (DInv_init kw)
  obtain ⟨_, _, g3, g4, g5⟩ := flushStream_master kw (runChunks kw initDState chunks).1
    (runChunks kw initDState chunks).2 (by simpa using h1)
  refine ⟨?_, ?_, g4⟩
  · intro b hb
    unfold runSession at hb
    rcases List.mem_append.mp hb with hb | hb
    · obtain ⟨hs, hl⟩ := h2 hkw b hb
      refine ⟨hs, ?_, ?_⟩
      · rw [hl]; unfold BATCH_SIZE; omega
      · rw [hl]
    · exact g3 hkw b hb
  · intro b hb
    unfold runSession at hb
    dsimp only at hb
    rcases g5 with hf | ⟨x, hf⟩
    · rw [hf, List.append_nil] at hb
      have hb' : b ∈ (runChunks kw initDState chunks).2 :=
        (List.dropLast_sublist _).subset hb
      exact (h2 hkw b hb').2
    · rw [hf, List.dropLast_concat] at hb
      exact (h2 hkw b hb).2

/-- Witness for C4 at keyword `z` and the 21-line chunk. -/
theorem c4_ranked_batches_witness :
    (['z'] : Line) ≠ [] ∧
    ((∀ b ∈ runSession ['z'] [c2Chunk],
      ScoredSortedChunk ['z'] b ∧ 1 ≤ b.length ∧ b.length ≤ BATCH_SIZE) ∧
    (∀ b ∈ (runSession ['z'] [c2Chunk]).dropLast, b.length = BATCH_SIZE) ∧
    (runSessionState ['z'] [c2Chunk]).batch = []) :=
  ⟨by decide, c4_ranked_batches ['z'] [c2Chunk] (by decide)⟩
